import Mathlib

/-!
Shallow embedding of the company-storage layer of the repository:
`server/storage.ts` (class `MemStorage`), the `DatabaseStorage` variant,
and the spreadsheet-import row normalization (`normalizeHeaders`,
`processExcelFile`).  Stateful TypeScript methods become explicit
state-passing functions; JS `Map` becomes an insertion-ordered
association list; JS `Array.prototype.slice` is embedded with its
negative-index semantics.
-/

set_option autoImplicit false

namespace CompanyStore

/-- `InsertCompany` from `@shared/schema`: a company record without its
storage-assigned identifier. -/
structure InsertCompany where
  name : String
  contact : String
  email : String
  phone : String
  industry : String
  location : String
  employees : Int
  revenue : String
  status : String
  lastContact : String
  deriving DecidableEq, Repr, Inhabited

/-- `Company` from `@shared/schema`: `InsertCompany` plus the identifier
assigned by the store. -/
structure Company where
  id : Nat
  name : String
  contact : String
  email : String
  phone : String
  industry : String
  location : String
  employees : Int
  revenue : String
  status : String
  lastContact : String
  deriving DecidableEq, Repr

/-- `{ ...insertCompany, id }`: attach an identifier to an insert record. -/
def toCompany (c : InsertCompany) (id : Nat) : Company :=
  { id := id, name := c.name, contact := c.contact, email := c.email,
    phone := c.phone, industry := c.industry, location := c.location,
    employees := c.employees, revenue := c.revenue, status := c.status,
    lastContact := c.lastContact }

/-- `Partial<InsertCompany>`: every field optional, used by `updateCompany`. -/
structure CompanyPatch where
  name : Option String := none
  contact : Option String := none
  email : Option String := none
  phone : Option String := none
  industry : Option String := none
  location : Option String := none
  employees : Option Int := none
  revenue : Option String := none
  status : Option String := none
  lastContact : Option String := none
  deriving DecidableEq, Repr

/-- `{ ...company, ...companyData }`: fields supplied by the patch
overwrite, absent fields keep the existing value; `id` is not a field of
`Partial<InsertCompany>` so it is always kept. -/
def mergeCompany (c : Company) (p : CompanyPatch) : Company :=
  { id := c.id,
    name := p.name.getD c.name,
    contact := p.contact.getD c.contact,
    email := p.email.getD c.email,
    phone := p.phone.getD c.phone,
    industry := p.industry.getD c.industry,
    location := p.location.getD c.location,
    employees := p.employees.getD c.employees,
    revenue := p.revenue.getD c.revenue,
    status := p.status.getD c.status,
    lastContact := p.lastContact.getD c.lastContact }

/-! ### JS `Map` as an insertion-ordered association list -/

/-- `Map.prototype.set`: update in place if the key exists, else append. -/
def mapSet {α : Type} : List (Nat × α) → Nat → α → List (Nat × α)
  | [], k, v => [(k, v)]
  | (k', v') :: rest, k, v =>
    if k' = k then (k, v) :: rest else (k', v') :: mapSet rest k v

/-- `Map.prototype.get`. -/
def mapGet {α : Type} : List (Nat × α) → Nat → Option α
  | [], _ => none
  | (k', v') :: rest, k => if k' = k then some v' else mapGet rest k

/-- `Map.prototype.delete`: removes the entry, reporting whether one
existed. -/
def mapDelete {α : Type} : List (Nat × α) → Nat → Bool × List (Nat × α)
  | [], _ => (false, [])
  | (k', v') :: rest, k =>
    if k' = k then (true, rest)
    else
      let r := mapDelete rest k
      (r.1, (k', v') :: r.2)

/-- `Array.from(map.values())`: the values in insertion order. -/
def mapValues {α : Type} (m : List (Nat × α)) : List α :=
  m.map Prod.snd

/-! ### JS `Array.prototype.slice` with its negative-index semantics -/

/-- `arr.slice(start, stop)` for integer arguments: negative indices count
from the end of the array, and both endpoints are clamped to `[0, len]`. -/
def jsSlice {α : Type} (l : List α) (start stop : Int) : List α :=
  let len : Int := l.length
  let s : Int := if start < 0 then max (len + start) 0 else min start len
  let e : Int := if stop < 0 then max (len + stop) 0 else min stop len
  (l.drop s.toNat).take (e - s).toNat

/-! ### String helpers: `toLowerCase` and `includes` -/

/-- `String.prototype.toLowerCase` (character-wise lowering). -/
def strLower (s : String) : String :=
  String.mk (s.data.map Char.toLower)

/-- Does `hay` start with `needle`? -/
def startsWithList : List Char → List Char → Bool
  | [], _ => true
  | _ :: _, [] => false
  | a :: as, b :: bs => a = b && startsWithList as bs

/-- Is `needle` a contiguous substring of `hay`? -/
def subOfList (needle : List Char) : List Char → Bool
  | [] => needle.isEmpty
  | c :: rest => startsWithList needle (c :: rest) || subOfList needle rest

/-- `s.includes(sub)`: contiguous-substring containment. -/
def strIncludes (s sub : String) : Bool :=
  subOfList sub.data s.data

/-! ### `MemStorage` (company portion; the unused user table is omitted
because no route and no claim exercises it) -/

/-- The mutable state of a `MemStorage` instance: the insertion-ordered
`companiesMap` and the `currentCompanyId` counter. -/
structure MemStorage where
  companiesMap : List (Nat × Company)
  currentCompanyId : Nat
  deriving DecidableEq, Repr

/-- `MemStorage.createCompany`: assign `currentCompanyId`, store, bump the
counter, return the stored record. -/
def memCreateCompany (c : InsertCompany) (s : MemStorage) :
    Company × MemStorage :=
  let id := s.currentCompanyId
  let company := toCompany c id
  (company,
   { companiesMap := mapSet s.companiesMap id company,
     currentCompanyId := id + 1 })

/-- `MemStorage.getCompany`. -/
def memGetCompany (id : Nat) (s : MemStorage) : Option Company :=
  mapGet s.companiesMap id

/-- `MemStorage.getCompanies`: values in insertion order, sliced at
`(page-1)*pageSize`, together with the total map size. -/
def memGetCompanies (page pageSize : Int) (s : MemStorage) :
    List Company × Nat :=
  let companies := mapValues s.companiesMap
  let total := companies.length
  let startIndex := (page - 1) * pageSize
  let endIndex := startIndex + pageSize
  (jsSlice companies startIndex endIndex, total)

/-- `MemStorage.updateCompany`: merge the patch onto the stored record, or
return `none` leaving the store unchanged. -/
def memUpdateCompany (id : Nat) (p : CompanyPatch) (s : MemStorage) :
    Option Company × MemStorage :=
  match mapGet s.companiesMap id with
  | none => (none, s)
  | some company =>
    let updatedCompany := mergeCompany company p
    (some updatedCompany,
     { s with companiesMap := mapSet s.companiesMap id updatedCompany })

/-- `MemStorage.deleteCompany`: `companiesMap.delete(id)`. -/
def memDeleteCompany (id : Nat) (s : MemStorage) : Bool × MemStorage :=
  let r := mapDelete s.companiesMap id
  (r.1, { s with companiesMap := r.2 })

/-- The five-field OR filter of `MemStorage.searchCompanies`, applied to
an already-lowercased query. -/
def matchesQuery (lowercaseQuery : String) (c : Company) : Bool :=
  strIncludes (strLower c.name) lowercaseQuery ||
  strIncludes (strLower c.contact) lowercaseQuery ||
  strIncludes (strLower c.email) lowercaseQuery ||
  strIncludes (strLower c.industry) lowercaseQuery ||
  strIncludes (strLower c.location) lowercaseQuery

/-- `MemStorage.searchCompanies`: filter the values by the lowercased
query, then paginate the filtered list; `total` is the filtered size. -/
def memSearchCompanies (query : String) (page pageSize : Int)
    (s : MemStorage) : List Company × Nat :=
  let companies := mapValues s.companiesMap
  let lowercaseQuery := strLower query
  let filteredCompanies := companies.filter (matchesQuery lowercaseQuery)
  let total := filteredCompanies.length
  let startIndex := (page - 1) * pageSize
  let endIndex := startIndex + pageSize
  (jsSlice filteredCompanies startIndex endIndex, total)

/-- `MemStorage.createManyCompanies`: insert each record via
`createCompany`, counting the insertions. -/
def memCreateManyCompanies : List InsertCompany → MemStorage →
    Nat × MemStorage
  | [], s => (0, s)
  | c :: rest, s =>
    let r := memCreateCompany c s
    let k := memCreateManyCompanies rest r.2
    (k.1 + 1, k.2)

/-- Run a sequence of `createCompany` calls, collecting the returned
records. -/
def memRunCreates : List InsertCompany → MemStorage →
    List Company × MemStorage
  | [], s => ([], s)
  | c :: rest, s =>
    let r := memCreateCompany c s
    let k := memRunCreates rest r.2
    (r.1 :: k.1, k.2)

/-- The three sample companies seeded by the `MemStorage` constructor. -/
def sampleCompanies : List InsertCompany :=
  [{ name := "Acme Inc.", contact := "John Smith",
     email := "john@acmeinc.com", phone := "+1 (555) 123-4567",
     industry := "Technology", location := "San Francisco, CA",
     employees := 250, revenue := "$25M", status := "Active",
     lastContact := "2023-08-15" },
   { name := "TechCorp", contact := "Jane Doe",
     email := "jane@techcorp.com", phone := "+1 (555) 987-6543",
     industry := "Software", location := "Austin, TX",
     employees := 500, revenue := "$50M", status := "Pending",
     lastContact := "2023-08-10" },
   { name := "Global Industries", contact := "Michael Johnson",
     email := "michael@globalind.com", phone := "+1 (555) 222-3333",
     industry := "Manufacturing", location := "Chicago, IL",
     employees := 1200, revenue := "$120M", status := "Inactive",
     lastContact := "2023-07-22" }]

/-- The `MemStorage` constructor: empty maps, counters at 1, then the
three sample companies inserted via `createCompany`. -/
def mkMemStorage : MemStorage :=
  (memRunCreates sampleCompanies ⟨[], 1⟩).2

/-! ### `DatabaseStorage` (`routes.ts.frontend`)

The class body is in the repository, but the relational engine behind
`db` is not, so the engine-level pieces (serial identifier assignment,
`ORDER BY ... DESC`, `LIMIT`/`OFFSET`, `ILIKE` containment) are modelled
from the spec as noted on each definition. -/

/-- The relational table backing `DatabaseStorage`: rows in insertion
order plus the auto-increment counter.  Modelled from the spec: "a
relational table keyed by an auto-incrementing identifier". -/
structure DbState where
  rows : List Company
  serial : Nat
  deriving DecidableEq, Repr

/-- Insert one row: rows are stored in insertion order; ordering happens
at query time. -/
def dbInsertRow (d : DbState) (c : InsertCompany) : Company × DbState :=
  let company := toCompany c d.serial
  (company, { rows := d.rows ++ [company], serial := d.serial + 1 })

/-- `DatabaseStorage.createCompany`: single-row insert returning the
stored row.  Identifier assignment modelled from the spec
(auto-increment). -/
def dbCreateCompany (c : InsertCompany) (d : DbState) :
    Company × DbState :=
  dbInsertRow d c

/-- `DatabaseStorage.getCompany`: `SELECT ... WHERE id = ?`, first row or
absent. -/
def dbGetCompany (id : Nat) (d : DbState) : Option Company :=
  d.rows.find? (fun r => r.id = id)

/-- One step of the sort behind `ORDER BY id DESC`: insert into a
descending-ordered list. -/
def insertDescById (a : Company) : List Company → List Company
  | [] => [a]
  | b :: l => if b.id ≤ a.id then a :: b :: l else b :: insertDescById a l

/-- `ORDER BY companies.id DESC`.  Modelled from the spec: rows ordered
by descending identifier. -/
def sortDescById : List Company → List Company
  | [] => []
  | a :: l => insertDescById a (sortDescById l)

/-- `LIMIT pageSize OFFSET (page-1)*pageSize` applied to an ordered row
list.  Modelled from the spec (window/offset pagination); negative
arguments are clamped to zero. -/
def dbWindow (l : List Company) (offset limit : Int) : List Company :=
  (l.drop offset.toNat).take limit.toNat

/-- `DatabaseStorage.getCompanies`: total row count, then the
`ORDER BY id DESC` window at `(page-1)*pageSize`. -/
def dbGetCompanies (page pageSize : Int) (d : DbState) :
    List Company × Nat :=
  let total := d.rows.length
  let offset := (page - 1) * pageSize
  (dbWindow (sortDescById d.rows) offset pageSize, total)

/-- `DatabaseStorage.updateCompany`: `UPDATE ... SET ... WHERE id = ?
RETURNING *`; merges the patch onto every matching row and returns the
first updated row, or absent. -/
def dbUpdateCompany (id : Nat) (p : CompanyPatch) (d : DbState) :
    Option Company × DbState :=
  let updated := { d with
    rows := d.rows.map (fun r => if r.id = id then mergeCompany r p else r) }
  ((d.rows.find? (fun r => r.id = id)).map (fun r => mergeCompany r p),
   updated)

/-- `DatabaseStorage.deleteCompany`: `DELETE ... WHERE id = ?`, then
`return true` regardless of whether a row was removed. -/
def dbDeleteCompany (id : Nat) (d : DbState) : Bool × DbState :=
  (true, { d with rows := d.rows.filter (fun r => ¬ r.id = id) })

/-- The five-field `ILIKE` disjunction of `DatabaseStorage.searchCompanies`.
Modelled from the spec: case-insensitive containment (pattern
metacharacters inside the query are not modelled). -/
def dbMatches (query : String) (c : Company) : Bool :=
  matchesQuery (strLower query) c

/-- `DatabaseStorage.searchCompanies`: filtered count, then the ordered
window over the filtered rows. -/
def dbSearchCompanies (query : String) (page pageSize : Int)
    (d : DbState) : List Company × Nat :=
  let filtered := d.rows.filter (dbMatches query)
  let total := filtered.length
  let offset := (page - 1) * pageSize
  (dbWindow (sortDescById filtered) offset pageSize, total)

/-- Run a sequence of `DatabaseStorage.createCompany` calls. -/
def dbRunCreates : List InsertCompany → DbState → List Company × DbState
  | [], d => ([], d)
  | c :: rest, d =>
    let r := dbCreateCompany c d
    let k := dbRunCreates rest r.2
    (r.1 :: k.1, k.2)

/-- `DatabaseStorage.createManyCompanies`: empty input returns 0 without
touching the table; otherwise a multi-row insert whose returned row count
is the result.  The multi-row insert assigns serial identifiers in input
order (modelled from the spec). -/
def dbCreateManyCompanies (cs : List InsertCompany) (d : DbState) :
    Nat × DbState :=
  if cs.isEmpty then (0, d)
  else
    let r := dbRunCreates cs d
    (r.1.length, r.2)

/-! ### Import adapter: header normalization and row processing
(`client/src/lib/utils.ts` and `import-excel.tsx`) -/

/-- A parsed spreadsheet cell: the library yields strings or numbers
(numeric cells restricted to integers in this embedding). -/
inductive CellVal where
  | str (s : String)
  | num (n : Int)
  deriving DecidableEq, Repr

/-- JS `String(value)` on a cell value. -/
def cellToString : CellVal → String
  | .str s => s
  | .num n => toString n

/-- Numeric value of a digit run. -/
def digitsVal (ds : List Char) : Nat :=
  ds.foldl (fun a c => a * 10 + (c.toNat - 48)) 0

/-- JS `parseInt(s) || 0`: skip leading whitespace, optional sign,
leading digit run; no digits (`NaN`) falls back to 0. -/
def jsParseIntOr0 (s : String) : Int :=
  let cs := s.data.dropWhile
    (fun c => c = ' ' || c = '\t' || c = '\n' || c = '\r')
  let signNeg := match cs with | '-' :: _ => true | _ => false
  let body := match cs with | '-' :: t => t | '+' :: t => t | t => t
  let ds := body.takeWhile Char.isDigit
  if ds.isEmpty then 0
  else if signNeg then -(digitsVal ds : Int) else (digitsVal ds : Int)

/-- The fixed alias table of `normalizeHeaders`. -/
def headerAlias (h : String) : Option String :=
  if h = "company" then some "name"
  else if h = "company name" then some "name"
  else if h = "contact person" then some "contact"
  else if h = "contact name" then some "contact"
  else if h = "phone number" then some "phone"
  else if h = "employee count" then some "employees"
  else if h = "number of employees" then some "employees"
  else if h = "last contacted" then some "lastContact"
  else if h = "last contact date" then some "lastContact"
  else none

/-- `normalizeHeaders`: lowercase each header, then apply the alias
table, falling back to the lowercased header. -/
def normalizeHeaders (headers : List String) : List String :=
  headers.map (fun header =>
    let lowerHeader := strLower header
    (headerAlias lowerHeader).getD lowerHeader)

/-- `typeof value === 'number' ? value : parseInt(String(value)) || 0`. -/
def cellToEmployees : CellVal → Int
  | .num n => n
  | .str s => jsParseIntOr0 s

/-- The `switch (header.toLowerCase())` of `processExcelFile`: write one
cell value into the partial record. -/
def assignField (c : CompanyPatch) (header : String) (v : CellVal) :
    CompanyPatch :=
  match strLower header with
  | "name" => { c with name := some (cellToString v) }
  | "contact" | "contactname" | "contactperson" =>
      { c with contact := some (cellToString v) }
  | "email" | "emailaddress" => { c with email := some (cellToString v) }
  | "phone" | "phonenumber" => { c with phone := some (cellToString v) }
  | "industry" | "sector" => { c with industry := some (cellToString v) }
  | "location" | "address" => { c with location := some (cellToString v) }
  | "employees" | "employeecount" | "employeenumber" =>
      { c with employees := some (cellToEmployees v) }
  | "revenue" | "annualrevenue" =>
      { c with revenue := some (cellToString v) }
  | "status" | "companystatus" =>
      { c with status := some (cellToString v) }
  | "lastcontact" | "lastcontactdate" =>
      { c with lastContact := some (cellToString v) }
  | _ => c

/-- The `normalizedHeaders.forEach` loop: map the cells of one row onto a
partial record, skipping `undefined` cells. -/
def mapRow (headers : List String) (row : List (Option CellVal)) :
    CompanyPatch :=
  headers.enum.foldl
    (fun c p =>
      match row.getD p.1 none with
      | none => c
      | some v => assignField c p.2 v)
    {}

/-- JS truthiness of an optional string: present and non-empty. -/
def truthyStr : Option String → Bool
  | none => false
  | some s => !s.isEmpty

/-- JS truthiness of an optional integer: present and non-zero. -/
def truthyInt : Option Int → Bool
  | none => false
  | some n => n != 0

/-- The default-filling block of `processExcelFile`, with the current
date passed in for `lastContact`. -/
def fillDefaults (c : CompanyPatch) (today : String) : CompanyPatch :=
  let c := if truthyStr c.phone then c else { c with phone := some "N/A" }
  let c := if truthyStr c.industry then c
           else { c with industry := some "Other" }
  let c := if truthyStr c.location then c
           else { c with location := some "Unknown" }
  let c := if truthyInt c.employees then c
           else { c with employees := some 0 }
  let c := if truthyStr c.revenue then c
           else { c with revenue := some "Unknown" }
  let c := if truthyStr c.status then c else { c with status := some "New" }
  if truthyStr c.lastContact then c
  else { c with lastContact := some today }

/-- `company as InsertCompany`: read the accepted partial record as a
full insert record. -/
def patchToInsert (c : CompanyPatch) : InsertCompany :=
  { name := c.name.getD "", contact := c.contact.getD "",
    email := c.email.getD "", phone := c.phone.getD "",
    industry := c.industry.getD "", location := c.location.getD "",
    employees := c.employees.getD 0, revenue := c.revenue.getD "",
    status := c.status.getD "", lastContact := c.lastContact.getD "" }

/-- One iteration of the row loop of `processExcelFile`: map the row,
accept it only when name, contact and email are all truthy, filling
defaults on acceptance. -/
def processRow (normalizedHeaders : List String)
    (row : List (Option CellVal)) (today : String) :
    Option InsertCompany :=
  let company := mapRow normalizedHeaders row
  if truthyStr company.name && truthyStr company.contact &&
      truthyStr company.email then
    some (patchToInsert (fillDefaults company today))
  else none

/-! ## Lemmas about the JS `Map` embedding -/

theorem mapGet_eq_none {α : Type} (m : List (Nat × α)) (k : Nat)
    (h : k ∉ m.map Prod.fst) : mapGet m k = none := by
  induction m with
  | nil => rfl
  | cons p rest ih =>
    obtain ⟨k', v'⟩ := p
    simp only [List.map_cons, List.mem_cons, not_or] at h
    simp [mapGet, Ne.symm h.1, ih h.2]

theorem mapGet_append_of_not_mem {α : Type} (m₁ m₂ : List (Nat × α))
    (k : Nat) (h : k ∉ m₁.map Prod.fst) :
    mapGet (m₁ ++ m₂) k = mapGet m₂ k := by
  induction m₁ with
  | nil => rfl
  | cons p rest ih =>
    obtain ⟨k', v'⟩ := p
    simp only [List.map_cons, List.mem_cons, not_or] at h
    simp [mapGet, Ne.symm h.1, ih h.2]

theorem mapGet_append_single_ne {α : Type} (m : List (Nat × α))
    (k j : Nat) (v : α) (hj : j ≠ k) :
    mapGet (m ++ [(k, v)]) j = mapGet m j := by
  induction m with
  | nil => simp [mapGet, Ne.symm hj]
  | cons p rest ih =>
    obtain ⟨k', v'⟩ := p
    by_cases h : k' = j
    · simp [mapGet, h]
    · simp [mapGet, h, ih]

theorem mapSet_eq_append {α : Type} (m : List (Nat × α)) (k : Nat) (v : α)
    (h : k ∉ m.map Prod.fst) : mapSet m k v = m ++ [(k, v)] := by
  induction m with
  | nil => rfl
  | cons p rest ih =>
    obtain ⟨k', v'⟩ := p
    simp only [List.map_cons, List.mem_cons, not_or] at h
    simp [mapSet, Ne.symm h.1, ih h.2]

theorem mapGet_set_self {α : Type} (m : List (Nat × α)) (k : Nat) (v : α) :
    mapGet (mapSet m k v) k = some v := by
  induction m with
  | nil => simp [mapSet, mapGet]
  | cons p rest ih =>
    obtain ⟨k', v'⟩ := p
    by_cases h : k' = k
    · simp [mapSet, mapGet, h]
    · simp [mapSet, mapGet, h, ih]

theorem mapGet_set_ne {α : Type} (m : List (Nat × α)) (k j : Nat) (v : α)
    (hj : j ≠ k) : mapGet (mapSet m k v) j = mapGet m j := by
  induction m with
  | nil => simp [mapSet, mapGet, Ne.symm hj]
  | cons p rest ih =>
    obtain ⟨k', v'⟩ := p
    by_cases h : k' = k
    · subst h
      simp only [mapSet, if_pos rfl, mapGet, if_neg (Ne.symm hj)]
    · simp only [mapSet, if_neg h, mapGet, ih]

theorem mapDelete_fst {α : Type} (m : List (Nat × α)) (k : Nat) :
    (mapDelete m k).1 = (mapGet m k).isSome := by
  induction m with
  | nil => rfl
  | cons p rest ih =>
    obtain ⟨k', v'⟩ := p
    by_cases h : k' = k
    · simp [mapDelete, mapGet, h]
    · simp [mapDelete, mapGet, h, ih]

theorem mapDelete_sublist {α : Type} (m : List (Nat × α)) (k : Nat) :
    List.Sublist (mapDelete m k).2 m := by
  induction m with
  | nil => simp [mapDelete]
  | cons p rest ih =>
    obtain ⟨k', v'⟩ := p
    by_cases h : k' = k
    · simp only [mapDelete, if_pos h]
      exact (List.sublist_cons_self _ _)
    · simp only [mapDelete, if_neg h]
      exact List.Sublist.cons₂ _ ih

theorem map_fst_mapDelete_sublist {α : Type} (m : List (Nat × α))
    (k : Nat) :
    List.Sublist ((mapDelete m k).2.map Prod.fst) (m.map Prod.fst) :=
  List.Sublist.map Prod.fst (mapDelete_sublist m k)

theorem mapGet_delete_self {α : Type} (m : List (Nat × α)) (k : Nat)
    (h : (m.map Prod.fst).Nodup) : mapGet (mapDelete m k).2 k = none := by
  induction m with
  | nil => rfl
  | cons p rest ih =>
    obtain ⟨k', v'⟩ := p
    simp only [List.map_cons, List.nodup_cons] at h
    by_cases hk : k' = k
    · subst hk
      simp only [mapDelete, if_pos rfl]
      exact mapGet_eq_none rest k' h.1
    · simp only [mapDelete, if_neg hk, mapGet, if_neg hk]
      exact ih h.2

theorem mapGet_delete_ne {α : Type} (m : List (Nat × α)) (k j : Nat)
    (hj : j ≠ k) : mapGet (mapDelete m k).2 j = mapGet m j := by
  induction m with
  | nil => rfl
  | cons p rest ih =>
    obtain ⟨k', v'⟩ := p
    by_cases hk : k' = k
    · subst hk
      simp [mapDelete, mapGet, Ne.symm hj]
    · simp [mapDelete, mapGet, hk, ih]

theorem mapValues_append {α : Type} (m₁ m₂ : List (Nat × α)) :
    mapValues (m₁ ++ m₂) = mapValues m₁ ++ mapValues m₂ :=
  List.map_append _ _ _

/-- Filtering the values of a map is the same as taking the values of the
entry-filtered map. -/
theorem mapValues_filter {α : Type} (m : List (Nat × α)) (p : α → Bool) :
    (mapValues m).filter p = mapValues (m.filter (fun pr => p pr.2)) := by
  induction m with
  | nil => rfl
  | cons q rest ih =>
    obtain ⟨k', v'⟩ := q
    by_cases h : p v'
    · simp [mapValues, List.filter, h] at ih ⊢
      exact ih
    · simp [mapValues, List.filter, h] at ih ⊢
      exact ih

/-! ## Lemmas about `jsSlice` -/

/-- For a non-negative start and width, `jsSlice` is plain
`drop`-then-`take`. -/
theorem jsSlice_of_nonneg {α : Type} (l : List α) (a n : Int)
    (ha : 0 ≤ a) (hn : 0 ≤ n) :
    jsSlice l a (a + n) = (l.drop a.toNat).take n.toNat := by
  unfold jsSlice
  have h1 : ¬ a < 0 := by omega
  have h2 : ¬ a + n < 0 := by omega
  simp only [if_neg h1, if_neg h2]
  by_cases hal : a ≤ (l.length : Int)
  · rw [min_eq_left hal]
    by_cases hbl : a + n ≤ (l.length : Int)
    · rw [min_eq_left hbl]
      congr 1
      omega
    · rw [min_eq_right (by omega : (l.length : Int) ≤ a + n)]
      rw [List.take_of_length_le, List.take_of_length_le]
      · rw [List.length_drop]
        omega
      · rw [List.length_drop]
        omega
  · rw [min_eq_right (by omega : (l.length : Int) ≤ a),
        min_eq_right (by omega : (l.length : Int) ≤ a + n)]
    rw [List.drop_eq_nil_of_le (by omega : l.length ≤ a.toNat)]
    simp

/-- `jsSlice` is a sublist of its input. -/
theorem jsSlice_sublist {α : Type} (l : List α) (a b : Int) :
    List.Sublist (jsSlice l a b) l := by
  unfold jsSlice
  exact (List.take_sublist _ _).trans (List.drop_sublist _ _)

/-! ## String lemmas -/

theorem subOfList_nil_left (hay : List Char) : subOfList [] hay = true := by
  cases hay <;> simp [subOfList, startsWithList]

theorem matchesQuery_empty (c : Company) :
    matchesQuery (strLower "") c = true := by
  have h : (strLower "").data = [] := rfl
  simp [matchesQuery, strIncludes, h, subOfList_nil_left]

/-! ## Identifier invariants and the `createCompany` induction -/

/-- Every stored entry of a `MemStorage` carries its key as its `id`, and
every key is strictly below the counter. -/
def MemIds (s : MemStorage) : Prop :=
  ∀ pr ∈ s.companiesMap, pr.2.id = pr.1 ∧ pr.1 < s.currentCompanyId

/-- Every row identifier of a `DbState` is strictly below the serial
counter. -/
def DbIds (d : DbState) : Prop :=
  ∀ r ∈ d.rows, r.id < d.serial

theorem memIds_not_mem {s : MemStorage} (hs : MemIds s) :
    s.currentCompanyId ∉ s.companiesMap.map Prod.fst := by
  intro hmem
  obtain ⟨pr, hpr, he⟩ := List.mem_map.mp hmem
  have := (hs pr hpr).2
  omega

/-- Behavior of a run of `createCompany` calls starting from any state
satisfying the identifier invariant: the returned identifiers are
strictly increasing, all at least the starting counter, each returned
record is the input record with the assigned identifier, the invariant is
preserved, lookups below the starting counter are unchanged, and every
returned record is stored in the final state under its identifier. -/
theorem memRunCreates_spec (cs : List InsertCompany) :
    ∀ s : MemStorage, MemIds s →
    ((memRunCreates cs s).1.map Company.id).Pairwise (· < ·) ∧
    (∀ c ∈ (memRunCreates cs s).1, s.currentCompanyId ≤ c.id) ∧
    List.Forall₂ (fun ic c => c = toCompany ic c.id) cs
      (memRunCreates cs s).1 ∧
    MemIds (memRunCreates cs s).2 ∧
    (memRunCreates cs s).2.currentCompanyId =
      s.currentCompanyId + cs.length ∧
    (∀ k, k < s.currentCompanyId →
      mapGet (memRunCreates cs s).2.companiesMap k =
        mapGet s.companiesMap k) ∧
    (∀ c ∈ (memRunCreates cs s).1,
      memGetCompany c.id (memRunCreates cs s).2 = some c) := by
  induction cs with
  | nil =>
    intro s hs
    refine ⟨List.Pairwise.nil, ?_, List.Forall₂.nil, hs, rfl, ?_, ?_⟩ <;>
      simp [memRunCreates]
  | cons c rest ih =>
    intro s hs
    have hknot := memIds_not_mem hs
    set idn := s.currentCompanyId with hid
    set company := toCompany c idn with hcomp
    set s' : MemStorage :=
      { companiesMap := mapSet s.companiesMap idn company,
        currentCompanyId := idn + 1 } with hs'def
    have hs'id : s'.currentCompanyId = idn + 1 := rfl
    have hset : s'.companiesMap = s.companiesMap ++ [(idn, company)] :=
      mapSet_eq_append _ _ _ hknot
    have hs' : MemIds s' := by
      intro pr hpr
      rw [hset] at hpr
      rw [hs'id]
      rcases List.mem_append.mp hpr with hold | hnew
      · exact ⟨(hs pr hold).1, by have := (hs pr hold).2; omega⟩
      · simp only [List.mem_singleton] at hnew
        subst hnew
        exact ⟨rfl, by omega⟩
    obtain ⟨ih1, ih2, ih3, ih4, ih5, ih6, ih7⟩ := ih s' hs'
    rw [hs'id] at ih5
    have hrun : memRunCreates (c :: rest) s =
        (company :: (memRunCreates rest s').1, (memRunCreates rest s').2) :=
      rfl
    rw [hrun]
    have hcompid : company.id = idn := rfl
    refine ⟨?_, ?_, ?_, ih4, ?_, ?_, ?_⟩
    · refine List.pairwise_cons.mpr ⟨?_, ih1⟩
      intro b hb
      obtain ⟨c', hc', he⟩ := List.mem_map.mp hb
      have := ih2 c' hc'
      rw [hs'id] at this
      omega
    · intro c' hc'
      rcases List.mem_cons.mp hc' with he | hmem
      · subst he; omega
      · have := ih2 c' hmem
        rw [hs'id] at this
        omega
    · exact List.Forall₂.cons rfl ih3
    · simp only [List.length_cons]
      omega
    · intro k hk
      have h1 := ih6 k (by rw [hs'id]; omega)
      rw [h1, hset, mapGet_append_single_ne _ _ _ _ (by omega)]
    · intro c' hc'
      rcases List.mem_cons.mp hc' with he | hmem
      · subst he
        have h1 := ih6 company.id (by rw [hs'id, hcompid]; omega)
        unfold memGetCompany
        rw [h1, hset, hcompid,
            mapGet_append_of_not_mem _ _ _ hknot]
        simp [mapGet]
      · exact ih7 c' hmem

/-- The `DatabaseStorage` analogue of `memRunCreates_spec`. -/
theorem dbRunCreates_spec (cs : List InsertCompany) :
    ∀ d : DbState, DbIds d →
    ((dbRunCreates cs d).1.map Company.id).Pairwise (· < ·) ∧
    (∀ c ∈ (dbRunCreates cs d).1, d.serial ≤ c.id) ∧
    List.Forall₂ (fun ic c => c = toCompany ic c.id) cs
      (dbRunCreates cs d).1 ∧
    DbIds (dbRunCreates cs d).2 ∧
    (dbRunCreates cs d).2.serial = d.serial + cs.length ∧
    (∀ k, k < d.serial →
      (dbRunCreates cs d).2.rows.find? (fun r => r.id = k) =
        d.rows.find? (fun r => r.id = k)) ∧
    (∀ c ∈ (dbRunCreates cs d).1,
      dbGetCompany c.id (dbRunCreates cs d).2 = some c) := by
  induction cs with
  | nil =>
    intro d hd
    refine ⟨List.Pairwise.nil, ?_, List.Forall₂.nil, hd, rfl, ?_, ?_⟩ <;>
      simp [dbRunCreates]
  | cons c rest ih =>
    intro d hd
    set idn := d.serial with hid
    set company := toCompany c idn with hcomp
    set d' : DbState :=
      { rows := d.rows ++ [company], serial := idn + 1 } with hd'def
    have hfind_old : d.rows.find? (fun r => r.id = idn) = none := by
      apply List.find?_eq_none.mpr
      intro r hr
      have := hd r hr
      simp only [decide_eq_true_eq]
      omega
    have hd'id : d'.serial = idn + 1 := rfl
    have hd'rows : d'.rows = d.rows ++ [company] := rfl
    have hd' : DbIds d' := by
      intro r hr
      rw [hd'rows] at hr
      rw [hd'id]
      rcases List.mem_append.mp hr with hold | hnew
      · have := hd r hold; omega
      · simp only [List.mem_singleton] at hnew
        subst hnew
        simp [hcomp, toCompany]
    obtain ⟨ih1, ih2, ih3, ih4, ih5, ih6, ih7⟩ := ih d' hd'
    rw [hd'id] at ih5
    have hrun : dbRunCreates (c :: rest) d =
        (company :: (dbRunCreates rest d').1, (dbRunCreates rest d').2) :=
      rfl
    rw [hrun]
    have hcompid : company.id = idn := rfl
    refine ⟨?_, ?_, ?_, ih4, ?_, ?_, ?_⟩
    · refine List.pairwise_cons.mpr ⟨?_, ih1⟩
      intro b hb
      obtain ⟨c', hc', he⟩ := List.mem_map.mp hb
      have := ih2 c' hc'
      rw [hd'id] at this
      omega
    · intro c' hc'
      rcases List.mem_cons.mp hc' with he | hmem
      · subst he; omega
      · have := ih2 c' hmem
        rw [hd'id] at this
        omega
    · exact List.Forall₂.cons rfl ih3
    · simp only [List.length_cons]
      omega
    · intro k hk
      have h1 := ih6 k (by rw [hd'id]; omega)
      rw [h1, hd'rows]
      rw [List.find?_append]
      cases hrows : d.rows.find? (fun r => decide (r.id = k)) with
      | some r => simp [Option.or]
      | none =>
        simp only [Option.or, List.find?]
        have hne : (decide (company.id = k)) = false := by
          simp only [hcompid, decide_eq_false_iff_not]
          omega
        simp [hne]
    · intro c' hc'
      rcases List.mem_cons.mp hc' with he | hmem
      · subst he
        have h1 := ih6 company.id (by rw [hd'id, hcompid]; omega)
        unfold dbGetCompany
        rw [h1, hd'rows]
        rw [List.find?_append, hcompid, hfind_old]
        simp [Option.or, List.find?, hcompid]
      · exact ih7 c' hmem

/-! ## Ordering lemmas -/

theorem insertDescById_of_lt (a : Company) (m : List Company)
    (h : ∀ b ∈ m, a.id < b.id) : insertDescById a m = m ++ [a] := by
  induction m with
  | nil => rfl
  | cons b l ih =>
    have hb : a.id < b.id := h b (List.mem_cons_self b l)
    have : ¬ b.id ≤ a.id := by omega
    simp only [insertDescById, if_neg this, List.cons_append]
    rw [ih (fun b' hb' => h b' (List.mem_cons_of_mem b hb'))]

/-- On a list whose identifiers strictly increase (the shape every
reachable table has), `ORDER BY id DESC` is exactly list reversal. -/
theorem sortDescById_eq_reverse (l : List Company)
    (h : l.Pairwise (fun x y => x.id < y.id)) :
    sortDescById l = l.reverse := by
  induction l with
  | nil => rfl
  | cons a l ih =>
    obtain ⟨ha, hl⟩ := List.pairwise_cons.mp h
    simp only [sortDescById]
    rw [ih hl, insertDescById_of_lt a l.reverse
        (fun b hb => ha b (List.mem_reverse.mp hb)),
      List.reverse_cons]

/-- The value identifiers of a map whose entries carry their keys are the
keys. -/
theorem mapValues_ids (m : List (Nat × Company))
    (h : ∀ pr ∈ m, pr.2.id = pr.1) :
    (mapValues m).map Company.id = m.map Prod.fst := by
  unfold mapValues
  rw [List.map_map]
  exact List.map_congr_left (fun pr hpr => h pr hpr)

theorem mapValues_nodup (m : List (Nat × Company))
    (h1 : (m.map Prod.fst).Pairwise (· < ·))
    (h2 : ∀ pr ∈ m, pr.2.id = pr.1) : (mapValues m).Nodup := by
  have hmap : ((mapValues m).map Company.id).Nodup := by
    rw [mapValues_ids m h2]
    exact h1.imp Nat.ne_of_lt
  exact List.Nodup.of_map Company.id hmap

/-! ## Pagination lemmas -/

/-- Two consecutive `n`-windows of a duplicate-free list are disjoint. -/
theorem disjoint_take_drop {α : Type} (l : List α) (hl : l.Nodup)
    (a n : Nat) :
    List.Disjoint ((l.drop a).take n) ((l.drop (a + n)).take n) := by
  have hm : (l.drop a).Nodup := hl.sublist (List.drop_sublist a l)
  have h2 : l.drop (a + n) = (l.drop a).drop n := (List.drop_drop n a l).symm
  rw [h2]
  have hsplit : (l.drop a).take n ++ (l.drop a).drop n = l.drop a :=
    List.take_append_drop n (l.drop a)
  have hnd : ((l.drop a).take n ++ (l.drop a).drop n).Nodup := by
    rw [hsplit]; exact hm
  have hd : ((l.drop a).take n).Disjoint ((l.drop a).drop n) :=
    (List.nodup_append.mp hnd).2.2
  exact List.disjoint_of_subset_right
    (List.take_subset n ((l.drop a).drop n)) hd

/-- Concatenating enough consecutive `n`-windows reconstructs the list. -/
theorem flatten_chunks {α : Type} (n : Nat) :
    ∀ (P : Nat) (l : List α), l.length ≤ n * P →
    ((List.range P).map (fun i => (l.drop (i * n)).take n)).flatten = l := by
  intro P
  induction P with
  | zero =>
    intro l h
    simp only [Nat.mul_zero, Nat.le_zero] at h
    rw [List.eq_nil_of_length_eq_zero h]
    rfl
  | succ P ih =>
    intro l h
    rw [List.range_succ_eq_map]
    simp only [List.map_cons, List.map_map, List.flatten_cons,
      Nat.zero_mul, List.drop_zero]
    have hmap : (List.range P).map
        ((fun i => (l.drop (i * n)).take n) ∘ Nat.succ) =
        (List.range P).map (fun i => ((l.drop n).drop (i * n)).take n) := by
      apply List.map_congr_left
      intro i _
      simp only [Function.comp]
      rw [List.drop_drop]
      congr 2
      rw [Nat.succ_mul]
      omega
    rw [Nat.mul_succ] at h
    rw [hmap, ih (l.drop n) (by rw [List.length_drop]; omega)]
    exact List.take_append_drop n l

/-- For `page ≥ 1` and `pageSize ≥ 0`, the `getCompanies` window is plain
`drop`-then-`take` at offset `(page-1)*pageSize`. -/
theorem memGetCompanies_window (p n : Int) (s : MemStorage) (hp : 1 ≤ p)
    (hn : 0 ≤ n) :
    (memGetCompanies p n s).1 =
      ((mapValues s.companiesMap).drop ((p - 1) * n).toNat).take n.toNat :=
  jsSlice_of_nonneg _ _ _ (mul_nonneg (by omega) hn) hn

theorem memGetCompanies_total (p n : Int) (s : MemStorage) :
    (memGetCompanies p n s).2 = (mapValues s.companiesMap).length := rfl

instance (s : MemStorage) : Decidable (MemIds s) := by
  unfold MemIds; infer_instance

instance (d : DbState) : Decidable (DbIds d) := by
  unfold DbIds; infer_instance

/-! ## The claims -/

/-- C1: every sequence of `createCompany` calls on a single store
instance (in-memory or database-backed, each starting from any state
satisfying its identifier invariant) returns records whose identifiers
are strictly increasing, all at least the current counter — hence unique
among, and strictly greater than, every identifier previously assigned in
that store's lifetime — and each returned record is the input record with
the assigned identifier and equals the record stored under that
identifier in the final state. -/
theorem C1_createCompany_ids :
    (∀ (cs : List InsertCompany) (s : MemStorage), MemIds s →
      ((memRunCreates cs s).1.map Company.id).Pairwise (· < ·) ∧
      (∀ c ∈ (memRunCreates cs s).1, s.currentCompanyId ≤ c.id) ∧
      (∀ c ∈ (memRunCreates cs s).1, ∀ pr ∈ s.companiesMap, pr.1 < c.id) ∧
      List.Forall₂ (fun ic c => c = toCompany ic c.id) cs
        (memRunCreates cs s).1 ∧
      (∀ c ∈ (memRunCreates cs s).1,
        memGetCompany c.id (memRunCreates cs s).2 = some c)) ∧
    (∀ (cs : List InsertCompany) (d : DbState), DbIds d →
      ((dbRunCreates cs d).1.map Company.id).Pairwise (· < ·) ∧
      (∀ c ∈ (dbRunCreates cs d).1, d.serial ≤ c.id) ∧
      (∀ c ∈ (dbRunCreates cs d).1, ∀ r ∈ d.rows, r.id < c.id) ∧
      List.Forall₂ (fun ic c => c = toCompany ic c.id) cs
        (dbRunCreates cs d).1 ∧
      (∀ c ∈ (dbRunCreates cs d).1,
        dbGetCompany c.id (dbRunCreates cs d).2 = some c)) := by
  constructor
  · intro cs s hs
    obtain ⟨h1, h2, h3, _, _, _, h7⟩ := memRunCreates_spec cs s hs
    refine ⟨h1, h2, ?_, h3, h7⟩
    intro c hc pr hpr
    have ha := h2 c hc
    have hb := (hs pr hpr).2
    omega
  · intro cs d hd
    obtain ⟨h1, h2, h3, _, _, _, h7⟩ := dbRunCreates_spec cs d hd
    refine ⟨h1, h2, ?_, h3, h7⟩
    intro c hc r hr
    have ha := h2 c hc
    have hb := hd r hr
    omega

theorem C1_witness :
    ((memRunCreates sampleCompanies mkMemStorage).1.map
      Company.id).Pairwise (· < ·) ∧
    ((dbRunCreates sampleCompanies ⟨[], 1⟩).1.map
      Company.id).Pairwise (· < ·) :=
  ⟨(C1_createCompany_ids.1 sampleCompanies mkMemStorage (by decide)).1,
   (C1_createCompany_ids.2 sampleCompanies ⟨[], 1⟩ (by decide)).1⟩

/-- C2 counterexample: on the constructor-seeded `MemStorage`,
`getCompanies(1, 10)` returns identifiers `[1, 2, 3]` — insertion order,
which is ascending, not the descending-identifier order the claim states
for both implementations. -/
theorem C2_cex :
    (memGetCompanies 1 10 mkMemStorage).1.map Company.id = [1, 2, 3] ∧
    ¬ ((memGetCompanies 1 10 mkMemStorage).1.map
        Company.id).Pairwise (· > ·) := by
  constructor
  · rfl
  · decide

/-- C2 amended: `DatabaseStorage.getCompanies` returns its window ordered
by strictly descending identifier together with the total row count;
`MemStorage.getCompanies` returns its window in insertion order — which,
identifiers being assigned by a strictly increasing counter, is strictly
ascending identifier order — together with the total map size.  The two
implementations do not exhibit the same ordering. -/
theorem C2_ordering :
    (∀ (p n : Int) (d : DbState),
      d.rows.Pairwise (fun x y => x.id < y.id) →
      ((dbGetCompanies p n d).1.map Company.id).Pairwise (· > ·) ∧
      (dbGetCompanies p n d).2 = d.rows.length) ∧
    (∀ (p n : Int) (s : MemStorage),
      (s.companiesMap.map Prod.fst).Pairwise (· < ·) →
      (∀ pr ∈ s.companiesMap, pr.2.id = pr.1) →
      ((memGetCompanies p n s).1.map Company.id).Pairwise (· < ·) ∧
      (memGetCompanies p n s).2 = (mapValues s.companiesMap).length) := by
  constructor
  · intro p n d hd
    constructor
    · have hrev : (d.rows.reverse.map Company.id).Pairwise (· > ·) := by
        rw [List.map_reverse]
        exact List.pairwise_reverse.mpr
          (List.pairwise_map.mpr hd)
      have hsub : List.Sublist ((dbGetCompanies p n d).1.map Company.id)
          (d.rows.reverse.map Company.id) := by
        apply List.Sublist.map
        show List.Sublist (dbWindow (sortDescById d.rows) _ _) _
        rw [sortDescById_eq_reverse d.rows hd]
        exact (List.take_sublist _ _).trans (List.drop_sublist _ _)
      exact hrev.sublist hsub
    · rfl
  · intro p n s h1 h2
    constructor
    · have hvals : ((mapValues s.companiesMap).map
          Company.id).Pairwise (· < ·) := by
        rw [mapValues_ids _ h2]
        exact h1
      have hsub : List.Sublist ((memGetCompanies p n s).1.map Company.id)
          ((mapValues s.companiesMap).map Company.id) :=
        List.Sublist.map _ (jsSlice_sublist _ _ _)
      exact hvals.sublist hsub
    · rfl

theorem C2_witness :
    ((dbGetCompanies 1 10 (dbRunCreates sampleCompanies ⟨[], 1⟩).2).1.map
      Company.id).Pairwise (· > ·) ∧
    ((memGetCompanies 1 10 mkMemStorage).1.map
      Company.id).Pairwise (· < ·) :=
  ⟨(C2_ordering.1 1 10 (dbRunCreates sampleCompanies ⟨[], 1⟩).2
      (by decide)).1,
   (C2_ordering.2 1 10 mkMemStorage (by decide) (by decide)).1⟩

/-- C3 counterexample: on an empty database table,
`DatabaseStorage.deleteCompany(1)` returns `true` even though no record
with identifier 1 exists, so its boolean result does not report whether a
record was actually removed. -/
theorem C3_cex :
    ¬ ((dbDeleteCompany 1 ⟨[], 1⟩).1 =
        (dbGetCompany 1 (⟨[], 1⟩ : DbState)).isSome) := by
  decide

/-- C3 amended: `MemStorage.deleteCompany(id)` removes the record — a
subsequent `getCompany(id)` is absent — and its boolean result reports
whether a record was actually removed, so a second `deleteCompany(id)`
returns `false`; `DatabaseStorage.deleteCompany(id)` also removes the
record but always returns `true`, whether or not anything was removed. -/
theorem C3_delete :
    (∀ (id : Nat) (s : MemStorage),
      (s.companiesMap.map Prod.fst).Nodup →
      (memDeleteCompany id s).1 = (memGetCompany id s).isSome ∧
      memGetCompany id (memDeleteCompany id s).2 = none ∧
      (memDeleteCompany id (memDeleteCompany id s).2).1 = false) ∧
    (∀ (id : Nat) (d : DbState),
      (dbDeleteCompany id d).1 = true ∧
      dbGetCompany id (dbDeleteCompany id d).2 = none) := by
  constructor
  · intro id s hnd
    have h2 : memGetCompany id (memDeleteCompany id s).2 = none :=
      mapGet_delete_self _ _ hnd
    refine ⟨mapDelete_fst _ _, h2, ?_⟩
    show (mapDelete (memDeleteCompany id s).2.companiesMap id).1 = false
    rw [mapDelete_fst]
    have : mapGet (memDeleteCompany id s).2.companiesMap id = none := h2
    rw [this]
    rfl
  · intro id d
    refine ⟨rfl, ?_⟩
    apply List.find?_eq_none.mpr
    intro r hr
    have hmem := List.mem_filter.mp hr
    simp only [decide_eq_true_eq] at hmem ⊢
    exact hmem.2

theorem C3_witness :
    (memDeleteCompany 2 mkMemStorage).1 =
      (memGetCompany 2 mkMemStorage).isSome ∧
    memGetCompany 2 (memDeleteCompany 2 mkMemStorage).2 = none ∧
    (memDeleteCompany 2 (memDeleteCompany 2 mkMemStorage).2).1 = false :=
  C3_delete.1 2 mkMemStorage (by decide)

/-- C4: when a record with the identifier exists, `updateCompany` returns
and stores the merge of the patch onto it: each supplied field takes the
supplied value, each absent field (and the identifier) keeps its
pre-update value, and every other stored record is untouched; when no
record has the identifier it returns absent and leaves the store
unchanged. -/
theorem C4_updateCompany (id : Nat) (p : CompanyPatch) (s : MemStorage) :
    (∀ c, memGetCompany id s = some c →
      (memUpdateCompany id p s).1 = some (mergeCompany c p) ∧
      memGetCompany id (memUpdateCompany id p s).2 =
        some (mergeCompany c p) ∧
      (mergeCompany c p).id = c.id ∧
      (∀ v, p.name = some v → (mergeCompany c p).name = v) ∧
      (p.name = none → (mergeCompany c p).name = c.name) ∧
      (∀ v, p.contact = some v → (mergeCompany c p).contact = v) ∧
      (p.contact = none → (mergeCompany c p).contact = c.contact) ∧
      (∀ v, p.email = some v → (mergeCompany c p).email = v) ∧
      (p.email = none → (mergeCompany c p).email = c.email) ∧
      (∀ v, p.phone = some v → (mergeCompany c p).phone = v) ∧
      (p.phone = none → (mergeCompany c p).phone = c.phone) ∧
      (∀ v, p.industry = some v → (mergeCompany c p).industry = v) ∧
      (p.industry = none → (mergeCompany c p).industry = c.industry) ∧
      (∀ v, p.location = some v → (mergeCompany c p).location = v) ∧
      (p.location = none → (mergeCompany c p).location = c.location) ∧
      (∀ v, p.employees = some v → (mergeCompany c p).employees = v) ∧
      (p.employees = none → (mergeCompany c p).employees = c.employees) ∧
      (∀ v, p.revenue = some v → (mergeCompany c p).revenue = v) ∧
      (p.revenue = none → (mergeCompany c p).revenue = c.revenue) ∧
      (∀ v, p.status = some v → (mergeCompany c p).status = v) ∧
      (p.status = none → (mergeCompany c p).status = c.status) ∧
      (∀ v, p.lastContact = some v → (mergeCompany c p).lastContact = v) ∧
      (p.lastContact = none →
        (mergeCompany c p).lastContact = c.lastContact) ∧
      (∀ j, j ≠ id →
        memGetCompany j (memUpdateCompany id p s).2 =
          memGetCompany j s)) ∧
    (memGetCompany id s = none → memUpdateCompany id p s = (none, s)) := by
  constructor
  · intro c hc
    have hc' : mapGet s.companiesMap id = some c := hc
    have hupd : memUpdateCompany id p s =
        (some (mergeCompany c p),
         { s with companiesMap :=
             mapSet s.companiesMap id (mergeCompany c p) }) := by
      unfold memUpdateCompany
      rw [hc']
    refine ⟨by rw [hupd], ?_, rfl, ?_, ?_, ?_, ?_, ?_, ?_, ?_, ?_, ?_, ?_,
      ?_, ?_, ?_, ?_, ?_, ?_, ?_, ?_, ?_, ?_, ?_⟩
    · show mapGet (memUpdateCompany id p s).2.companiesMap id = _
      rw [hupd]
      exact mapGet_set_self _ _ _
    all_goals
      first
      | (intro v hv; simp [mergeCompany, hv])
      | (intro hv; simp [mergeCompany, hv])
      | (intro j hj
         show mapGet (memUpdateCompany id p s).2.companiesMap j = _
         rw [hupd]
         exact mapGet_set_ne _ _ _ _ hj)
  · intro h
    have h' : mapGet s.companiesMap id = none := h
    unfold memUpdateCompany
    rw [h']

theorem C4_witness :
    (memUpdateCompany 1 { name := some "X" } mkMemStorage).1 =
      some (mergeCompany (toCompany sampleCompanies.head! 1)
        { name := some "X" }) := by
  have h := C4_updateCompany 1 { name := some "X" } mkMemStorage
  exact (h.1 (toCompany sampleCompanies.head! 1) (by decide)).1

/-- C5: both search implementations return exactly the window of the
records matching the five-field case-insensitive substring disjunction
(`matchesQuery` / `dbMatches`), under the same pagination and ordering
rules as `getCompanies` — searching a store is `getCompanies` over the
store restricted to the matching records — with `total` the size of the
filtered set rather than the global count. -/
theorem C5_searchCompanies :
    (∀ (q : String) (p n : Int) (s : MemStorage),
      memSearchCompanies q p n s =
        memGetCompanies p n
          { companiesMap := s.companiesMap.filter
              (fun pr => matchesQuery (strLower q) pr.2),
            currentCompanyId := s.currentCompanyId }) ∧
    (∀ (q : String) (p n : Int) (d : DbState),
      dbSearchCompanies q p n d =
        dbGetCompanies p n
          { rows := d.rows.filter (dbMatches q), serial := d.serial }) := by
  constructor
  · intro q p n s
    unfold memSearchCompanies memGetCompanies
    simp only
    rw [mapValues_filter]
  · intro q p n d
    rfl

/-- C6 counterexample: on the constructor-seeded store (3 records),
`getCompanies(-1, 2)` addresses offset `(-1-1)*2 = -4`, a position
holding no record, yet returns a non-empty window — JS `slice` interprets
the negative bounds from the end of the array — refuting "every
out-of-range page yields an empty window" for pages below 1. -/
theorem C6_cex :
    (memGetCompanies (-1) 2 mkMemStorage).1.map Company.id = [1] ∧
    (memGetCompanies (-1) 2 mkMemStorage).1 ≠ [] ∧
    (memGetCompanies (-1) 2 mkMemStorage).2 = 3 := by
  refine ⟨rfl, ?_, rfl⟩
  decide

/-- C6 amended: for every page ≥ 1 and pageSize ≥ 0, `getCompanies`
treats the page as 1-indexed and returns the window of records at offset
`(page-1)*pageSize` of length at most `pageSize`, and every out-of-range
page of that form yields an empty window rather than an error; pages
below 1 instead fall into JS negative-slice semantics and can return a
non-empty window. -/
theorem C6_pagination (p n : Int) (s : MemStorage) (hp : 1 ≤ p)
    (hn : 0 ≤ n) :
    (memGetCompanies p n s).1 =
      ((mapValues s.companiesMap).drop ((p - 1) * n).toNat).take n.toNat ∧
    (memGetCompanies p n s).1.length ≤ n.toNat ∧
    (((memGetCompanies p n s).2 : Int) ≤ (p - 1) * n →
      (memGetCompanies p n s).1 = []) := by
  have hw := memGetCompanies_window p n s hp hn
  refine ⟨hw, ?_, ?_⟩
  · rw [hw]
    exact List.length_take_le _ _
  · intro hle
    rw [memGetCompanies_total] at hle
    have ha : 0 ≤ (p - 1) * n := mul_nonneg (by omega) hn
    have hlen : (mapValues s.companiesMap).length ≤
        ((p - 1) * n).toNat := by omega
    rw [hw, List.drop_eq_nil_of_le hlen]
    exact List.take_nil

theorem C6_witness : (memGetCompanies 5 2 mkMemStorage).1 = [] := by
  have h := C6_pagination 5 2 mkMemStorage (by norm_num) (by norm_num)
  exact h.2.2 (by decide)

/-- C7: for page ≥ 1 and pageSize ≥ 1, consecutive `getCompanies`
windows are disjoint, and concatenating the windows of all pages in order
reconstructs the full ordered record set. -/
theorem C7_window_partition (s : MemStorage) (p n : Int) (hp : 1 ≤ p)
    (hn : 1 ≤ n)
    (h1 : (s.companiesMap.map Prod.fst).Pairwise (· < ·))
    (h2 : ∀ pr ∈ s.companiesMap, pr.2.id = pr.1) :
    List.Disjoint (memGetCompanies p n s).1
      (memGetCompanies (p + 1) n s).1 ∧
    (∀ P : Nat, (mapValues s.companiesMap).length ≤ n.toNat * P →
      ((List.range P).map
        (fun (i : Nat) => (memGetCompanies ((i : Int) + 1) n s).1)).flatten =
        mapValues s.companiesMap) := by
  have hn0 : (0 : Int) ≤ n := by omega
  have hwp := memGetCompanies_window p n s hp hn0
  have hwp1 := memGetCompanies_window (p + 1) n s (by omega) hn0
  have hoff : ((p + 1 - 1) * n).toNat = ((p - 1) * n).toNat + n.toNat := by
    have e1 : (p + 1 - 1) * n = (p - 1) * n + n := by ring
    rw [e1, Int.toNat_add (mul_nonneg (by omega) hn0) hn0]
  constructor
  · rw [hwp, hwp1, hoff]
    exact disjoint_take_drop _ (mapValues_nodup _ h1 h2) _ _
  · intro P hP
    have hwin : ∀ i ∈ List.range P,
        (memGetCompanies ((i : Int) + 1) n s).1 =
        ((mapValues s.companiesMap).drop (i * n.toNat)).take n.toNat := by
      intro i _
      rw [memGetCompanies_window ((i : Int) + 1) n s (by omega) hn0]
      congr 2
      have e1 : ((i : Int) + 1 - 1) * n = (i : Int) * n := by ring
      have e2 : (i : Int) * n = ((i * n.toNat : Nat) : Int) := by
        rw [Int.natCast_mul]
        congr 1
        exact (Int.toNat_of_nonneg hn0).symm
      rw [e1, e2, Int.toNat_natCast]
    rw [List.map_congr_left hwin]
    exact flatten_chunks n.toNat P _ hP

theorem C7_witness :
    List.Disjoint (memGetCompanies 1 2 mkMemStorage).1
      (memGetCompanies (1 + 1) 2 mkMemStorage).1 ∧
    ((List.range 2).map
      (fun (i : Nat) =>
        (memGetCompanies ((i : Int) + 1) 2 mkMemStorage).1)).flatten
      = mapValues mkMemStorage.companiesMap := by
  have h := C7_window_partition mkMemStorage 1 2 (by norm_num)
    (by norm_num) (by decide) (by decide)
  exact ⟨h.1, h.2 2 (by decide)⟩

/-- `createManyCompanies` is the sequential run of `createCompany`. -/
theorem memCreateManyCompanies_eq (cs : List InsertCompany) :
    ∀ s : MemStorage, memCreateManyCompanies cs s =
      ((memRunCreates cs s).1.length, (memRunCreates cs s).2) := by
  induction cs with
  | nil => intro s; rfl
  | cons c rest ih =>
    intro s
    show ((memCreateManyCompanies rest (memCreateCompany c s).2).1 + 1,
          (memCreateManyCompanies rest (memCreateCompany c s).2).2) = _
    rw [ih]
    rfl

theorem memRunCreates_length (cs : List InsertCompany) :
    ∀ s : MemStorage, (memRunCreates cs s).1.length = cs.length := by
  induction cs with
  | nil => intro s; rfl
  | cons c rest ih =>
    intro s
    show (memRunCreates rest (memCreateCompany c s).2).1.length + 1 = _
    rw [ih]
    rfl

theorem dbCreateManyCompanies_eq (cs : List InsertCompany) (d : DbState) :
    dbCreateManyCompanies cs d =
      ((dbRunCreates cs d).1.length, (dbRunCreates cs d).2) := by
  cases cs with
  | nil => rfl
  | cons c rest => rfl

theorem dbRunCreates_length (cs : List InsertCompany) :
    ∀ d : DbState, (dbRunCreates cs d).1.length = cs.length := by
  induction cs with
  | nil => intro d; rfl
  | cons c rest ih =>
    intro d
    show (dbRunCreates rest (dbCreateCompany c d).2).1.length + 1 = _
    rw [ih]
    rfl

/-- C8: in both implementations, `createManyCompanies(list)` produces the
same final store state as calling `createCompany` on each element in
input order (so identifiers are assigned in input order), and returns the
number of records inserted — the length of the input list. -/
theorem C8_createManyCompanies :
    (∀ (cs : List InsertCompany) (s : MemStorage),
      memCreateManyCompanies cs s =
        ((memRunCreates cs s).1.length, (memRunCreates cs s).2) ∧
      (memCreateManyCompanies cs s).1 = cs.length) ∧
    (∀ (cs : List InsertCompany) (d : DbState),
      dbCreateManyCompanies cs d =
        ((dbRunCreates cs d).1.length, (dbRunCreates cs d).2) ∧
      (dbCreateManyCompanies cs d).1 = cs.length) := by
  constructor
  · intro cs s
    refine ⟨memCreateManyCompanies_eq cs s, ?_⟩
    rw [memCreateManyCompanies_eq cs s]
    exact memRunCreates_length cs s
  · intro cs d
    refine ⟨dbCreateManyCompanies_eq cs d, ?_⟩
    rw [dbCreateManyCompanies_eq cs d]
    exact dbRunCreates_length cs d

/-- C9: a parsed spreadsheet row is accepted by the import adapter if and
only if the mapped name, contact and email values are all truthy
(present and non-empty) — other rows are silently dropped — and on an
accepted row every unmapped optional field receives its fixed default:
phone "N/A", industry "Other", location "Unknown", employees 0, revenue
"Unknown", status "New", last-contact the current date. -/
theorem C9_import_row (headers : List String)
    (row : List (Option CellVal)) (today : String) :
    ((processRow headers row today).isSome =
      (truthyStr (mapRow headers row).name &&
       truthyStr (mapRow headers row).contact &&
       truthyStr (mapRow headers row).email)) ∧
    (∀ c, processRow headers row today = some c →
      ((mapRow headers row).phone = none → c.phone = "N/A") ∧
      ((mapRow headers row).industry = none → c.industry = "Other") ∧
      ((mapRow headers row).location = none → c.location = "Unknown") ∧
      ((mapRow headers row).employees = none → c.employees = 0) ∧
      ((mapRow headers row).revenue = none → c.revenue = "Unknown") ∧
      ((mapRow headers row).status = none → c.status = "New") ∧
      ((mapRow headers row).lastContact = none →
        c.lastContact = today)) := by
  constructor
  · cases hb : (truthyStr (mapRow headers row).name &&
        truthyStr (mapRow headers row).contact &&
        truthyStr (mapRow headers row).email) with
    | false => simp [processRow, hb]
    | true => simp [processRow, hb]
  · intro c hc
    cases hb : (truthyStr (mapRow headers row).name &&
        truthyStr (mapRow headers row).contact &&
        truthyStr (mapRow headers row).email) with
    | false => simp [processRow, hb] at hc
    | true =>
      simp only [processRow, hb, if_true] at hc
      have hceq : c =
          patchToInsert (fillDefaults (mapRow headers row) today) := by
        simp at hc
        exact hc.symm
      subst hceq
      refine ⟨?_, ?_, ?_, ?_, ?_, ?_, ?_⟩ <;> intro hnone
      · simp [patchToInsert, fillDefaults, hnone, truthyStr,
          apply_ite CompanyPatch.phone]
      · simp [patchToInsert, fillDefaults, hnone, truthyStr,
          apply_ite CompanyPatch.industry]
      · simp [patchToInsert, fillDefaults, hnone, truthyStr,
          apply_ite CompanyPatch.location]
      · simp [patchToInsert, fillDefaults, hnone, truthyInt,
          apply_ite CompanyPatch.employees]
      · simp [patchToInsert, fillDefaults, hnone, truthyStr,
          apply_ite CompanyPatch.revenue]
      · simp [patchToInsert, fillDefaults, hnone, truthyStr,
          apply_ite CompanyPatch.status]
      · simp [patchToInsert, fillDefaults, hnone, truthyStr,
          apply_ite CompanyPatch.lastContact]

theorem C9_witness :
    (processRow ["name", "contact", "email"]
      [some (CellVal.str "A"), some (CellVal.str "B"),
       some (CellVal.str "c@d.com")] "2026-10-11").isSome = true ∧
    (processRow ["name", "contact", "email"]
      [some (CellVal.str ""), some (CellVal.str "X"),
       some (CellVal.str "y@z.com")] "2026-10-11").isSome = false := by
  constructor
  · rw [(C9_import_row ["name", "contact", "email"]
      [some (CellVal.str "A"), some (CellVal.str "B"),
       some (CellVal.str "c@d.com")] "2026-10-11").1]
    decide
  · rw [(C9_import_row ["name", "contact", "email"]
      [some (CellVal.str ""), some (CellVal.str "X"),
       some (CellVal.str "y@z.com")] "2026-10-11").1]
    decide

/-- C10: searching with the empty query string is exactly
`getCompanies`: the lowercased empty query is a substring of every field,
so the filter keeps every record, the window is the same and `total` is
the full record count. -/
theorem C10_empty_query (p n : Int) (s : MemStorage) :
    memSearchCompanies "" p n s = memGetCompanies p n s := by
  unfold memSearchCompanies memGetCompanies
  simp only
  rw [List.filter_eq_self.mpr (fun c _ => matchesQuery_empty c)]

end CompanyStore
